import Mathlib

/-!
Verification of the aisec-dashboard scan/normalize/merge core.

The definitions below are a shallow embedding of the TypeScript sources:
  * src/app/models/finding.model.ts        (canonical record shape)
  * src/app/models/semgrep.sarif.mapper.ts (toSeverity, hashId, SARIF mapper)
  * src/app/services/findings.service.ts   (FindingsService.add / merge-by-id)
  * src/app/services/bedrock.service.ts    (repairLikelyJSONArray, enrichFindings merge)
  * src/app/services/scan.service.ts       (adapters, streamLogs line scanning,
                                            startLogPolling single-subscription variant)
  * the per-tool logSubs revision of scan.service.ts
  * start-screen.component.ts              (start() lifecycle handling)

JavaScript objects with optional keys are modelled as structures with
`Option` fields (an absent key and a key holding `undefined` are identified,
matching the TypeScript optional-property view); object spread
`\x7b ...base, ...inc \x7d` becomes a per-field right-biased choice `pick`,
and nested objects (location, fingerprints) are single fields replaced
wholesale, exactly as a shallow spread does.
-/

/-- JS spread semantics for one optional field: the incoming value wins when
present, otherwise the base value is kept (`\x7b ...base, ...inc \x7d`). -/
def pick {α : Type} (base inc : Option α) : Option α :=
  match inc with
  | some v => some v
  | none => base

/-- JS nullish coalescing `a ?? b` on optional values. -/
def jsNullish {α : Type} (a b : Option α) : Option α :=
  match a with
  | some v => some v
  | none => b

/-- JS truthiness chain `a || b` on strings: the empty string falls through. -/
def jsOrStr (a : Option String) (b : String) : String :=
  match a with
  | some s => if s = "" then b else s
  | none => b

/-- JS truthiness chain `a || b` where both sides are optional strings. -/
def jsOrOpt (a b : Option String) : Option String :=
  match a with
  | some s => if s = "" then b else some s
  | none => b

@[simp] theorem pick_some {α : Type} (b : Option α) (v : α) : pick b (some v) = some v := rfl

@[simp] theorem pick_none {α : Type} (b : Option α) : pick b none = b := rfl

theorem pick_assoc {α : Type} (a b c : Option α) : pick (pick a b) c = pick a (pick b c) := by
  cases c <;> cases b <;> rfl

theorem pick_idem {α : Type} (a : Option α) : pick a a = a := by
  cases a <;> rfl

/-- `location` field of a canonical record (finding.model.ts `Location`). -/
structure Location where
  file : Option String := none
  line : Option Nat := none
  column : Option Nat := none
  url : Option String := none
  snippet : Option String := none
deriving DecidableEq, Repr

/-- Canonical record (finding.model.ts `FindingBase` plus the semgrep extras
`ruleSeverity`, `ruleShortId`, `cwe`).  `severity` is a `String` because the
TypeScript code can smuggle values outside the declared `Severity` union
through an `as any` cast (see the C7 analysis); the declared union is the
set `sixSeverities` below.  The untyped `raw` field (opaque source fragment)
is not representable in the typed embedding and is omitted; it never
influences control flow and is merged wholesale like any other field. -/
structure Finding where
  id : String
  tool : String
  ruleId : String
  message : String
  severity : String
  title : Option String := none
  location : Option Location := none
  fingerprints : Option (List (String × String)) := none
  tags : Option (List String) := none
  createdAt : Option String := none
  aiExplanation : Option String := none
  aiRemediation : Option String := none
  ruleSeverity : Option String := none
  ruleShortId : Option String := none
  cwe : Option (List String) := none
deriving DecidableEq, Repr

/-- Shallow merge `\x7b ...base, ...f \x7d` of two canonical records
(findings.service.ts line 21).  Required fields always come from the
incoming record; optional fields from the incoming record when present. -/
def mergeF (base f : Finding) : Finding :=
  { id := f.id, tool := f.tool, ruleId := f.ruleId, message := f.message,
    severity := f.severity,
    title := pick base.title f.title,
    location := pick base.location f.location,
    fingerprints := pick base.fingerprints f.fingerprints,
    tags := pick base.tags f.tags,
    createdAt := pick base.createdAt f.createdAt,
    aiExplanation := pick base.aiExplanation f.aiExplanation,
    aiRemediation := pick base.aiRemediation f.aiRemediation,
    ruleSeverity := pick base.ruleSeverity f.ruleSeverity,
    ruleShortId := pick base.ruleShortId f.ruleShortId,
    cwe := pick base.cwe f.cwe }

theorem mergeF_assoc (a b c : Finding) : mergeF (mergeF a b) c = mergeF a (mergeF b c) := by
  simp [mergeF, pick_assoc]

theorem mergeF_idem (a : Finding) : mergeF a a = a := by
  simp [mergeF, pick_idem]

@[simp] theorem mergeF_id (base f : Finding) : (mergeF base f).id = f.id := rfl

/-- `\x7b ...map.get(f.id), ...f \x7d` where the lookup may be `undefined`:
spreading `undefined` is a no-op, so the result is just `f`. -/
def mergeOpt (o : Option Finding) (f : Finding) : Finding :=
  match o with
  | some base => mergeF base f
  | none => f

@[simp] theorem mergeOpt_none (f : Finding) : mergeOpt none f = f := rfl

@[simp] theorem mergeOpt_some (b f : Finding) : mergeOpt (some b) f = mergeF b f := rfl

@[simp] theorem mergeOpt_id (o : Option Finding) (f : Finding) : (mergeOpt o f).id = f.id := by
  cases o <;> rfl

/-! ### JavaScript `Map` as an insertion-ordered association list

`Map.set` updates an existing key in place (keeping its position) and
appends a fresh key at the end; `Map.get` looks a key up; the `Map`
constructor applied to an entry list inserts the entries left to right;
`[...map.values()]` lists the values in key-insertion order. -/

/-- Entries of a JS `Map` with string keys, in insertion order. -/
abbrev JMap (α : Type) := List (String × α)

/-- `map.get k`. -/
def jget {α : Type} : JMap α → String → Option α
  | [], _ => none
  | (k', v) :: t, k => if k' = k then some v else jget t k

/-- `map.set k v`: update in place, or append when the key is fresh. -/
def jset {α : Type} : JMap α → String → α → JMap α
  | [], k, v => [(k, v)]
  | (k', v') :: t, k, v => if k' = k then (k', v) :: t else (k', v') :: jset t k v

/-- Keys in insertion order. -/
def jkeys {α : Type} (m : JMap α) : List String := m.map Prod.fst

/-- `[...map.values()]`. -/
def jvalues {α : Type} (m : JMap α) : List α := m.map Prod.snd

@[simp] theorem jget_nil {α : Type} (k : String) : jget ([] : JMap α) k = none := rfl

@[simp] theorem jget_cons {α : Type} (k' k : String) (v : α) (t : JMap α) :
    jget ((k', v) :: t) k = if k' = k then some v else jget t k := rfl

@[simp] theorem jkeys_nil {α : Type} : jkeys ([] : JMap α) = [] := rfl

@[simp] theorem jkeys_cons {α : Type} (k : String) (v : α) (t : JMap α) :
    jkeys ((k, v) :: t) = k :: jkeys t := rfl

@[simp] theorem jvalues_nil {α : Type} : jvalues ([] : JMap α) = [] := rfl

@[simp] theorem jvalues_cons {α : Type} (k : String) (v : α) (t : JMap α) :
    jvalues ((k, v) :: t) = v :: jvalues t := rfl

theorem jget_eq_none_of_not_mem {α : Type} {m : JMap α} {k : String}
    (h : k ∉ jkeys m) : jget m k = none := by
  induction m with
  | nil => rfl
  | cons p t ih =>
    obtain ⟨k', v⟩ := p
    simp only [jkeys_cons, List.mem_cons] at h
    push_neg at h
    simp [jget_cons, Ne.symm h.1, ih h.2]

theorem jget_jset_self {α : Type} (m : JMap α) (k : String) (v : α) :
    jget (jset m k v) k = some v := by
  induction m with
  | nil => simp [jset, jget]
  | cons p t ih =>
    obtain ⟨k', v'⟩ := p
    by_cases h : k' = k <;> simp [jset, jget, h, ih]

theorem jget_jset_ne {α : Type} (m : JMap α) (k k' : String) (v : α) (h : k ≠ k') :
    jget (jset m k v) k' = jget m k' := by
  induction m with
  | nil => simp [jset, jget, h]
  | cons p t ih =>
    obtain ⟨k0, v0⟩ := p
    by_cases h0 : k0 = k <;> simp [jset, jget, h0, ih]
    · subst h0; simp [h]

theorem jkeys_jset_of_mem {α : Type} {m : JMap α} {k : String} (v : α)
    (h : k ∈ jkeys m) : jkeys (jset m k v) = jkeys m := by
  induction m with
  | nil => simp [jkeys] at h
  | cons p t ih =>
    obtain ⟨k', v'⟩ := p
    by_cases hk : k' = k
    · simp [jset, hk]
    · simp only [jkeys_cons, List.mem_cons] at h
      rcases h with h | h
      · exact absurd h.symm hk
      · simp [jset, hk, ih h]

theorem jkeys_jset_of_not_mem {α : Type} {m : JMap α} {k : String} (v : α)
    (h : k ∉ jkeys m) : jkeys (jset m k v) = jkeys m ++ [k] := by
  induction m with
  | nil => simp [jset, jkeys]
  | cons p t ih =>
    obtain ⟨k', v'⟩ := p
    simp only [jkeys_cons, List.mem_cons] at h
    push_neg at h
    simp [jset, Ne.symm h.1, ih h.2]

theorem mem_jkeys_jset {α : Type} (m : JMap α) (k : String) (v : α) :
    k ∈ jkeys (jset m k v) := by
  by_cases h : k ∈ jkeys m
  · rw [jkeys_jset_of_mem v h]; exact h
  · rw [jkeys_jset_of_not_mem v h]; simp

theorem jkeys_jset_sublist {α : Type} (m : JMap α) (k : String) (v : α) :
    ∀ k', k' ∈ jkeys m → k' ∈ jkeys (jset m k v) := by
  intro k' h
  by_cases hk : k ∈ jkeys m
  · rw [jkeys_jset_of_mem v hk]; exact h
  · rw [jkeys_jset_of_not_mem v hk]; simp [h]

theorem jkeys_jset_nodup {α : Type} {m : JMap α} (k : String) (v : α)
    (h : (jkeys m).Nodup) : (jkeys (jset m k v)).Nodup := by
  by_cases hk : k ∈ jkeys m
  · rw [jkeys_jset_of_mem v hk]; exact h
  · rw [jkeys_jset_of_not_mem v hk]
    simpa [List.nodup_append] using ⟨h, hk⟩

/-- Well-formedness of a findings map: keys are distinct and every stored
record sits under its own id (both invariants hold for every map the
service ever builds, because entries are only created via `map.set(f.id, f)`
or `map.set(f.id, merged-with-id-f.id)`). -/
def WFmap (m : JMap Finding) : Prop :=
  (jkeys m).Nodup ∧ ∀ p ∈ m, (Prod.snd p).id = Prod.fst p

theorem WFmap_nil : WFmap [] := ⟨List.nodup_nil, by intro p hp; cases hp⟩

theorem jset_ids {m : JMap Finding} {k : String} {v : Finding}
    (h2 : ∀ p ∈ m, (Prod.snd p).id = Prod.fst p) (hv : v.id = k) :
    ∀ p ∈ jset m k v, (Prod.snd p).id = Prod.fst p := by
  induction m with
  | nil =>
    intro p hp
    simp [jset] at hp
    subst hp; simpa using hv
  | cons q t ih =>
    obtain ⟨k', v'⟩ := q
    intro p hp
    by_cases h : k' = k
    · simp only [jset, if_pos h] at hp
      rcases List.mem_cons.mp hp with hp | hp
      · subst hp; simpa [h] using hv
      · exact h2 p (List.mem_cons_of_mem _ hp)
    · simp only [jset, if_neg h] at hp
      rcases List.mem_cons.mp hp with hp | hp
      · rw [hp]; exact h2 (k', v') (List.mem_cons_self _ _)
      · exact ih (fun r hr => h2 r (List.mem_cons_of_mem _ hr)) p hp

theorem WFmap_jset {m : JMap Finding} {k : String} {v : Finding}
    (hm : WFmap m) (hv : v.id = k) : WFmap (jset m k v) :=
  ⟨jkeys_jset_nodup k v hm.1, jset_ids hm.2 hv⟩

theorem WFmap_tail {k : String} {v : Finding} {t : JMap Finding}
    (hm : WFmap ((k, v) :: t)) : WFmap t :=
  ⟨(List.nodup_cons.mp hm.1).2, fun q hq => hm.2 q (List.mem_cons_of_mem _ hq)⟩

theorem jget_WF {m : JMap Finding} {k : String} {v : Finding}
    (hm : WFmap m) (h : jget m k = some v) : v.id = k := by
  induction m with
  | nil => simp at h
  | cons p t ih =>
    obtain ⟨k', v'⟩ := p
    by_cases hk : k' = k
    · have hv' : v' = v := by simpa [jget, hk] using h
      have hid : v'.id = k' := by simpa using hm.2 (k', v') (List.mem_cons_self _ _)
      rw [← hv', hid, hk]
    · simp only [jget_cons, if_neg hk] at h
      exact ih (WFmap_tail hm) h

theorem mem_jkeys_of_jget {α : Type} {m : JMap α} {k : String} {v : α}
    (h : jget m k = some v) : k ∈ jkeys m := by
  by_contra hk
  rw [jget_eq_none_of_not_mem hk] at h
  exact Option.noConfusion h

/-- Membership in the value list of a well-formed map is exactly a
successful lookup at the record's own id. -/
theorem mem_jvalues_iff_jget {m : JMap Finding} (hm : WFmap m) (v : Finding) :
    v ∈ jvalues m ↔ jget m v.id = some v := by
  induction m with
  | nil => simp
  | cons p t ih =>
    obtain ⟨k', v'⟩ := p
    have hid : v'.id = k' := by simpa using hm.2 (k', v') (List.mem_cons_self _ _)
    have ht : WFmap t :=
      ⟨(List.nodup_cons.mp hm.1).2, fun q hq => hm.2 q (List.mem_cons_of_mem _ hq)⟩
    have hk'nt : k' ∉ jkeys t := (List.nodup_cons.mp hm.1).1
    constructor
    · intro hmem
      rcases List.mem_cons.mp hmem with h | h
      · subst h; simp [jget, hid]
      · by_cases hk : k' = v.id
        · exact absurd (hk ▸ mem_jkeys_of_jget ((ih ht).mp h)) hk'nt
        · simp [jget, hk, (ih ht).mp h]
    · intro hg
      by_cases hk : k' = v.id
      · simp [jget, hk] at hg
        subst hg
        exact List.mem_cons_self _ _
      · simp [jget, hk] at hg
        exact List.mem_cons_of_mem _ ((ih ht).mpr hg)

/-- `new Map(list.map(f => [f.id, f]))`: sequential insertion of the entry
list (findings.service.ts line 20). -/
def jofList (l : List Finding) : JMap Finding :=
  l.foldl (fun m f => jset m f.id f) []

/-- One iteration of the merge loop of `FindingsService.add`
(findings.service.ts line 21): `map.set(f.id, \x7b ...map.get(f.id), ...f \x7d)`. -/
def addStep (m : JMap Finding) (f : Finding) : JMap Finding :=
  jset m f.id (mergeOpt (jget m f.id) f)

/-- `FindingsService.add` (findings.service.ts lines 18-23): early return on
an empty batch, otherwise rebuild the id-keyed map from the current store,
shallow-merge every incoming record onto the entry with the same id, and
replace the store with the map's value list. -/
def FindingsService.add (store : List Finding) (list : List Finding) : List Finding :=
  if list.isEmpty then store
  else jvalues (list.foldl addStep (jofList store))

theorem WFmap_foldl_jset {l : List Finding} :
    ∀ {m : JMap Finding}, WFmap m → WFmap (l.foldl (fun m f => jset m f.id f) m) := by
  induction l with
  | nil => intro m hm; exact hm
  | cons f t ih =>
    intro m hm
    exact ih (WFmap_jset hm rfl)

theorem WFmap_jofList (l : List Finding) : WFmap (jofList l) :=
  WFmap_foldl_jset WFmap_nil

theorem WFmap_foldl_addStep {l : List Finding} :
    ∀ {m : JMap Finding}, WFmap m → WFmap (l.foldl addStep m) := by
  induction l with
  | nil => intro m hm; exact hm
  | cons f t ih =>
    intro m hm
    exact ih (WFmap_jset hm (by simp))

theorem jset_append_of_not_mem {α : Type} {m : JMap α} {k : String} (v : α)
    (h : k ∉ jkeys m) : jset m k v = m ++ [(k, v)] := by
  induction m with
  | nil => simp [jset]
  | cons q r ih =>
    obtain ⟨kq, vq⟩ := q
    simp only [jkeys_cons, List.mem_cons] at h
    push_neg at h
    simp [jset, Ne.symm h.1, ih h.2]

/-- Rebuilding a map from its own value list is the identity on
well-formed maps: this is why `add` can round-trip the store through
`[...map.values()]` and `new Map(...)` without losing or reordering
anything. -/
theorem jofList_jvalues {m : JMap Finding} (hm : WFmap m) : jofList (jvalues m) = m := by
  suffices h : ∀ (m : JMap Finding) (acc : JMap Finding), WFmap m →
      (∀ k, k ∈ jkeys acc → k ∉ jkeys m) →
      (jvalues m).foldl (fun a f => jset a f.id f) acc = acc ++ m by
    simpa using h m [] hm (by simp)
  intro m
  induction m with
  | nil => intro acc _ _; simp [jvalues]
  | cons p t ih =>
    intro acc hm hdisj
    obtain ⟨k, v⟩ := p
    have hid : v.id = k := by simpa using hm.2 (k, v) (List.mem_cons_self _ _)
    have hfresh : k ∉ jkeys acc := fun h => hdisj k h (by simp)
    have hset : jset acc v.id v = acc ++ [(k, v)] := by
      rw [hid]; exact jset_append_of_not_mem v hfresh
    calc (jvalues ((k, v) :: t)).foldl (fun a f => jset a f.id f) acc
        = (jvalues t).foldl (fun a f => jset a f.id f) (jset acc v.id v) := by
          simp [jvalues]
      _ = (jvalues t).foldl (fun a f => jset a f.id f) (acc ++ [(k, v)]) := by rw [hset]
      _ = (acc ++ [(k, v)]) ++ t := by
          refine ih (acc ++ [(k, v)]) (WFmap_tail hm) ?_
          intro k' hk'
          have hk'cases : k' ∈ jkeys acc ∨ k' = k := by
            simpa [jkeys] using hk'
          rcases hk'cases with h | h
          · intro hmem
            exact hdisj k' h (by simp [hmem])
          · intro hmem
            exact (List.nodup_cons.mp hm.1).1 (h ▸ hmem)
      _ = acc ++ ((k, v) :: t) := by simp

@[simp] theorem addStep_eq (m : JMap Finding) (f : Finding) :
    addStep m f = jset m f.id (mergeOpt (jget m f.id) f) := rfl

theorem jget_addStep (m : JMap Finding) (f : Finding) (k : String) :
    jget (addStep m f) k =
      if f.id = k then some (mergeOpt (jget m f.id) f) else jget m k := by
  by_cases h : f.id = k
  · subst h; simp [jget_jset_self]
  · simp [h, jget_jset_ne _ _ _ _ h]

/-- Per-key effect of one merge-loop iteration, as a fold step on the
looked-up value. -/
def lstep (k : String) (o : Option Finding) (f : Finding) : Option Finding :=
  if f.id = k then some (mergeOpt o f) else o

/-- Per-key effect of the whole merge loop. -/
def lfold (k : String) (o : Option Finding) (X : List Finding) : Option Finding :=
  X.foldl (lstep k) o

theorem jget_foldl_addStep (X : List Finding) :
    ∀ (m : JMap Finding) (k : String),
      jget (X.foldl addStep m) k = lfold k (jget m k) X := by
  induction X with
  | nil => intro m k; rfl
  | cons f t ih =>
    intro m k
    have hstep : jget (addStep m f) k = lstep k (jget m k) f := by
      by_cases h : f.id = k
      · rw [jget_addStep, if_pos h, lstep, if_pos h, h]
      · rw [jget_addStep, if_neg h, lstep, if_neg h]
    calc jget ((f :: t).foldl addStep m) k
        = jget (t.foldl addStep (addStep m f)) k := rfl
      _ = lfold k (jget (addStep m f) k) t := ih _ k
      _ = lfold k (lstep k (jget m k) f) t := by rw [hstep]
      _ = lfold k (jget m k) (f :: t) := rfl

theorem mem_jkeys_foldl_addStep_mono (X : List Finding) :
    ∀ {m : JMap Finding} {k : String}, k ∈ jkeys m → k ∈ jkeys (X.foldl addStep m) := by
  induction X with
  | nil => intro m k h; exact h
  | cons f t ih =>
    intro m k h
    exact ih (jkeys_jset_sublist m f.id (mergeOpt (jget m f.id) f) k h)

theorem ids_mem_jkeys_foldl_addStep (X : List Finding) :
    ∀ {m : JMap Finding}, ∀ f ∈ X, f.id ∈ jkeys (X.foldl addStep m) := by
  induction X with
  | nil => intro m f h; cases h
  | cons g t ih =>
    intro m f h
    rcases List.mem_cons.mp h with h | h
    · subst h
      exact mem_jkeys_foldl_addStep_mono t (mem_jkeys_jset m f.id _)
    · exact ih f h

theorem jkeys_foldl_addStep_of_subset (X : List Finding) :
    ∀ {m : JMap Finding}, (∀ f ∈ X, f.id ∈ jkeys m) →
      jkeys (X.foldl addStep m) = jkeys m := by
  induction X with
  | nil => intro m _; rfl
  | cons f t ih =>
    intro m h
    have hf : f.id ∈ jkeys m := h f (List.mem_cons_self _ _)
    have hkeys : jkeys (addStep m f) = jkeys m := jkeys_jset_of_mem _ hf
    rw [List.foldl_cons, ih (fun g hg => hkeys ▸ h g (List.mem_cons_of_mem _ hg)), hkeys]

/-- Merging a run of records of one id onto an optional base. -/
def chainM (o : Option Finding) (Y : List Finding) : Option Finding :=
  Y.foldl (fun o f => some (mergeOpt o f)) o

/-- Folding the shallow merge over a record list. -/
def cfold (b : Finding) (Y : List Finding) : Finding :=
  Y.foldl mergeF b

theorem lfold_eq_chainM_filter (X : List Finding) :
    ∀ (o : Option Finding) (k : String),
      lfold k o X = chainM o (X.filter fun f => decide (f.id = k)) := by
  induction X with
  | nil => intro o k; rfl
  | cons f t ih =>
    intro o k
    by_cases h : f.id = k
    · have h1 : lfold k o (f :: t) = lfold k (some (mergeOpt o f)) t := by
        simp only [lfold, List.foldl_cons, lstep, if_pos h]
      have h2 : (f :: t).filter (fun f => decide (f.id = k))
          = f :: t.filter (fun f => decide (f.id = k)) := by
        simp [List.filter_cons, h]
      rw [h1, ih, h2]
      rfl
    · have h1 : lfold k o (f :: t) = lfold k o t := by
        simp only [lfold, List.foldl_cons, lstep, if_neg h]
      have h2 : (f :: t).filter (fun f => decide (f.id = k))
          = t.filter (fun f => decide (f.id = k)) := by
        simp [List.filter_cons, h]
      rw [h1, ih, h2]

theorem chainM_some (Y : List Finding) :
    ∀ b : Finding, chainM (some b) Y = some (cfold b Y) := by
  induction Y with
  | nil => intro b; rfl
  | cons f t ih =>
    intro b
    calc chainM (some b) (f :: t)
        = chainM (some (mergeF b f)) t := rfl
      _ = some (cfold (mergeF b f) t) := ih _
      _ = some (cfold b (f :: t)) := rfl

theorem cfold_mergeF (Y : List Finding) :
    ∀ a b : Finding, cfold (mergeF a b) Y = mergeF a (cfold b Y) := by
  induction Y with
  | nil => intro a b; rfl
  | cons y t ih =>
    intro a b
    calc cfold (mergeF a b) (y :: t)
        = cfold (mergeF (mergeF a b) y) t := rfl
      _ = cfold (mergeF a (mergeF b y)) t := by rw [mergeF_assoc]
      _ = mergeF a (cfold (mergeF b y) t) := ih _ _
      _ = mergeF a (cfold b (y :: t)) := rfl

/-- Re-running a one-id merge chain on its own result changes nothing:
the shallow merge is associative and idempotent. -/
theorem chainM_replay (o : Option Finding) (Y : List Finding) :
    chainM (chainM o Y) Y = chainM o Y := by
  cases Y with
  | nil => rfl
  | cons f t =>
    have hout : chainM o (f :: t) = some (cfold (mergeOpt o f) t) := by
      calc chainM o (f :: t) = chainM (some (mergeOpt o f)) t := rfl
        _ = some (cfold (mergeOpt o f) t) := chainM_some _ _
    rw [hout]
    have hstep : chainM (some (cfold (mergeOpt o f) t)) (f :: t)
        = some (mergeF (cfold (mergeOpt o f) t) (cfold f t)) := by
      calc chainM (some (cfold (mergeOpt o f) t)) (f :: t)
          = chainM (some (mergeF (cfold (mergeOpt o f) t) f)) t := rfl
        _ = some (cfold (mergeF (cfold (mergeOpt o f) t) f) t) := chainM_some _ _
        _ = some (mergeF (cfold (mergeOpt o f) t) (cfold f t)) := by rw [cfold_mergeF]
    rw [hstep]
    cases o with
    | none =>
      simp only [mergeOpt_none]
      rw [mergeF_idem]
    | some b =>
      simp only [mergeOpt_some]
      rw [cfold_mergeF, mergeF_assoc, mergeF_idem]

theorem lfold_replay (k : String) (o : Option Finding) (X : List Finding) :
    lfold k (lfold k o X) X = lfold k o X := by
  rw [lfold_eq_chainM_filter, lfold_eq_chainM_filter]
  exact chainM_replay _ _

/-- Two association lists with the same duplicate-free key sequence and the
same lookups are equal. -/
theorem jmap_ext {α : Type} :
    ∀ (m m' : JMap α), (jkeys m).Nodup → jkeys m = jkeys m' →
      (∀ k, jget m k = jget m' k) → m = m' := by
  intro m
  induction m with
  | nil =>
    intro m' _ hk _
    cases m' with
    | nil => rfl
    | cons p t => simp [jkeys] at hk
  | cons p t ih =>
    intro m' hnd hk hg
    obtain ⟨k, v⟩ := p
    cases m' with
    | nil => simp [jkeys] at hk
    | cons q t' =>
      obtain ⟨k', v'⟩ := q
      have hkk : k = k' ∧ jkeys t = jkeys t' := by
        simpa [jkeys] using hk
      obtain ⟨hkk1, hkk2⟩ := hkk
      subst hkk1
      have hv : v = v' := by
        have := hg k
        simpa [jget] using this
      subst hv
      have hknt : k ∉ jkeys t := (List.nodup_cons.mp hnd).1
      have hknt' : k ∉ jkeys t' := hkk2 ▸ hknt
      have htails : t = t' := by
        refine ih t' (List.nodup_cons.mp hnd).2 hkk2 ?_
        intro k''
        by_cases hcase : k'' = k
        · subst hcase
          rw [jget_eq_none_of_not_mem hknt, jget_eq_none_of_not_mem hknt']
        · have := hg k''
          simpa [jget, Ne.symm hcase, fun h : k = k'' => hcase h.symm] using this
      rw [htails]

/-- Replaying the whole merge loop of `add` on its own output map is the
identity. -/
theorem foldl_addStep_replay {X : List Finding} {m : JMap Finding} (hm : WFmap m) :
    X.foldl addStep (X.foldl addStep m) = X.foldl addStep m := by
  have h1 : WFmap (X.foldl addStep m) := WFmap_foldl_addStep hm
  have hsub : ∀ f ∈ X, f.id ∈ jkeys (X.foldl addStep m) :=
    ids_mem_jkeys_foldl_addStep X
  refine jmap_ext _ _ (WFmap_foldl_addStep h1).1
    ((jkeys_foldl_addStep_of_subset X hsub).symm ▸ rfl) ?_
  intro k
  rw [jget_foldl_addStep, jget_foldl_addStep]
  exact lfold_replay _ _ _

/-- C2: Findings Store merge is idempotent — `add(X); add(X)` leaves the
store exactly as `add(X)` once did, for every prior store content and
every batch X (including batches with internally duplicated ids). -/
theorem FindingsService.add_idempotent (store X : List Finding) :
    FindingsService.add (FindingsService.add store X) X
      = FindingsService.add store X := by
  cases hX : X.isEmpty with
  | true => simp [FindingsService.add, hX]
  | false =>
    have hm1 : WFmap (X.foldl addStep (jofList store)) :=
      WFmap_foldl_addStep (WFmap_jofList store)
    simp only [FindingsService.add, hX, Bool.false_eq_true, if_false]
    rw [jofList_jvalues hm1, foldl_addStep_replay (WFmap_jofList store)]

theorem lfold_of_not_mem {k : String} {X : List Finding}
    (h : k ∉ X.map Finding.id) (o : Option Finding) : lfold k o X = o := by
  rw [lfold_eq_chainM_filter]
  have hfil : X.filter (fun f => decide (f.id = k)) = [] := by
    rw [List.filter_eq_nil_iff]
    intro f hf
    simp only [decide_eq_true_eq]
    intro hid
    exact h (hid ▸ List.mem_map_of_mem Finding.id hf)
  rw [hfil]
  rfl

theorem lfold_comm_of_disjoint {A B : List Finding}
    (hd : ∀ i, i ∈ A.map Finding.id → i ∉ B.map Finding.id)
    (k : String) (o : Option Finding) :
    lfold k (lfold k o A) B = lfold k (lfold k o B) A := by
  by_cases hA : k ∈ A.map Finding.id
  · have hB : k ∉ B.map Finding.id := hd k hA
    rw [lfold_of_not_mem hB, lfold_of_not_mem hB]
  · rw [lfold_of_not_mem hA, lfold_of_not_mem hA]

theorem jget_jofList_of_not_mem {k : String} :
    ∀ {l : List Finding}, k ∉ l.map Finding.id → jget (jofList l) k = none := by
  suffices h : ∀ (l : List Finding) (m : JMap Finding), k ∉ l.map Finding.id →
      jget m k = none → jget (l.foldl (fun m f => jset m f.id f) m) k = none by
    intro l hl
    exact h l [] hl rfl
  intro l
  induction l with
  | nil => intro m _ hm; exact hm
  | cons f t ih =>
    intro m hl hm
    simp only [List.map_cons, List.mem_cons] at hl
    push_neg at hl
    refine ih _ hl.2 ?_
    rw [jget_jset_ne _ _ _ _ (fun h => hl.1 h.symm)]
    exact hm

/-- `arr.find(f => f.id === k)` on a plain findings list. -/
def findById (l : List Finding) (k : String) : Option Finding :=
  match l with
  | [] => none
  | f :: t => if f.id = k then some f else findById t k

theorem findById_jvalues {m : JMap Finding} (hm : WFmap m) (k : String) :
    findById (jvalues m) k = jget m k := by
  induction m with
  | nil => rfl
  | cons p t ih =>
    obtain ⟨k', v⟩ := p
    have hid : v.id = k' := by simpa using hm.2 (k', v) (List.mem_cons_self _ _)
    by_cases h : k' = k
    · simp only [jvalues_cons, findById, hid, h, if_pos, jget_cons, if_true]
    · simp only [jvalues_cons, findById, hid, h, if_false, jget_cons]
      exact ih (WFmap_tail hm)

/-- C3: `add(A); add(B)` and `add(B); add(A)` produce stores with the same
records whenever A and B share no ids; and when a later batch shares an id
with an earlier record, the result stored under that id is the shallow merge
in which the later record's present fields win while fields only the earlier
record had set are preserved. -/
theorem FindingsService.add_comm_disjoint_and_later_wins :
    (∀ (store A B : List Finding),
        (∀ i ∈ A.map Finding.id, i ∉ B.map Finding.id) →
        ∀ f : Finding,
          f ∈ FindingsService.add (FindingsService.add store A) B ↔
          f ∈ FindingsService.add (FindingsService.add store B) A)
    ∧ (∀ (store : List Finding) (a b : Finding), a.id = b.id →
        a.id ∉ store.map Finding.id →
        findById (FindingsService.add (FindingsService.add store [a]) [b]) a.id
            = some (mergeF a b)
        ∧ (mergeF a b).severity = b.severity
        ∧ (mergeF a b).message = b.message
        ∧ (∀ v, b.title = some v → (mergeF a b).title = some v)
        ∧ (b.title = none → (mergeF a b).title = a.title)
        ∧ (∀ v, b.aiExplanation = some v → (mergeF a b).aiExplanation = some v)
        ∧ (b.aiExplanation = none → (mergeF a b).aiExplanation = a.aiExplanation)
        ∧ (∀ l, b.location = some l → (mergeF a b).location = some l)
        ∧ (b.location = none → (mergeF a b).location = a.location)) := by
  constructor
  · intro store A B hd f
    cases A with
    | nil => simp [FindingsService.add]
    | cons a At =>
      cases B with
      | nil => simp [FindingsService.add]
      | cons b Bt =>
        have hm0 : WFmap (jofList store) := WFmap_jofList store
        have hmA : WFmap ((a :: At).foldl addStep (jofList store)) :=
          WFmap_foldl_addStep hm0
        have hmB : WFmap ((b :: Bt).foldl addStep (jofList store)) :=
          WFmap_foldl_addStep hm0
        have hredL : FindingsService.add
            (FindingsService.add store (a :: At)) (b :: Bt)
            = jvalues ((b :: Bt).foldl addStep
                ((a :: At).foldl addStep (jofList store))) := by
          simp only [FindingsService.add, List.isEmpty_cons, Bool.false_eq_true,
            if_false]
          rw [jofList_jvalues hmA]
        have hredR : FindingsService.add
            (FindingsService.add store (b :: Bt)) (a :: At)
            = jvalues ((a :: At).foldl addStep
                ((b :: Bt).foldl addStep (jofList store))) := by
          simp only [FindingsService.add, List.isEmpty_cons, Bool.false_eq_true,
            if_false]
          rw [jofList_jvalues hmB]
        rw [hredL, hredR,
          mem_jvalues_iff_jget (WFmap_foldl_addStep hmA) f,
          mem_jvalues_iff_jget (WFmap_foldl_addStep hmB) f,
          jget_foldl_addStep, jget_foldl_addStep, jget_foldl_addStep,
          jget_foldl_addStep, lfold_comm_of_disjoint hd]
  · intro store a b hab hnot
    have hm0 : WFmap (jofList store) := WFmap_jofList store
    have hg0 : jget (jofList store) a.id = none := jget_jofList_of_not_mem hnot
    have hmA : WFmap (addStep (jofList store) a) := WFmap_jset hm0 (by simp)
    have hmAB : WFmap (addStep (addStep (jofList store) a) b) :=
      WFmap_jset hmA (by simp)
    have h2 : FindingsService.add (FindingsService.add store [a]) [b]
        = jvalues (addStep (addStep (jofList store) a) b) := by
      simp only [FindingsService.add, List.isEmpty_cons, Bool.false_eq_true,
        if_false, List.foldl_cons, List.foldl_nil]
      rw [jofList_jvalues hmA]
    have hgA : jget (addStep (jofList store) a) b.id = some a := by
      rw [← hab, addStep_eq, hg0, mergeOpt_none, jget_jset_self]
    have hmain : findById
        (FindingsService.add (FindingsService.add store [a]) [b]) a.id
        = some (mergeF a b) := by
      rw [h2, findById_jvalues hmAB, hab, addStep_eq, jget_jset_self, hgA,
        mergeOpt_some]
    refine ⟨hmain, rfl, rfl, ?_, ?_, ?_, ?_, ?_, ?_⟩
    · intro v hv; simp [mergeF, pick, hv]
    · intro hv; simp [mergeF, pick, hv]
    · intro v hv; simp [mergeF, pick, hv]
    · intro hv; simp [mergeF, pick, hv]
    · intro l hl; simp [mergeF, pick, hl]
    · intro hl; simp [mergeF, pick, hl]

/-- Concrete record used in witnesses. -/
def sampleA : Finding :=
  { id := "x", tool := "semgrep", ruleId := "r1", message := "m1",
    severity := "high", title := some "t1" }

/-- Concrete record sharing `sampleA`'s id, used in witnesses. -/
def sampleB : Finding :=
  { id := "x", tool := "semgrep", ruleId := "r2", message := "m2",
    severity := "low" }

/-- Concrete record with a fresh id, used in witnesses. -/
def sampleC : Finding :=
  { id := "y", tool := "semgrep", ruleId := "r3", message := "m3",
    severity := "medium" }

/-- Witness for C3 at concrete inputs: id-disjoint batches commute and the
later record wins on a shared id. -/
theorem FindingsService.add_comm_disjoint_and_later_wins_witness :
    (sampleA ∈ FindingsService.add (FindingsService.add [] [sampleA]) [sampleC] ↔
      sampleA ∈ FindingsService.add (FindingsService.add [] [sampleC]) [sampleA])
    ∧ findById (FindingsService.add (FindingsService.add [] [sampleA]) [sampleB])
        sampleA.id = some (mergeF sampleA sampleB) :=
  ⟨FindingsService.add_comm_disjoint_and_later_wins.1 [] [sampleA] [sampleC]
      (by decide) sampleA,
    (FindingsService.add_comm_disjoint_and_later_wins.2 [] sampleA sampleB
      (by decide) (by decide)).1⟩

/-! ### Enrichment merge (bedrock.service.ts, `enrichFindings` lines 397-444)

The remote model invocation (`invokeOnce`) and the JSON decoding chain
(`tryParseJSON`) are abstracted as the merge's input: `none` stands for
"`tryParseJSON` returned null, or the parse result failed `Array.isArray`",
`some arr` for a successfully parsed response array.  The merge itself
(lines 424-443) is embedded verbatim. -/

/-- One parsed response tuple, as the merge loop reads it: only `id`,
`severity`, `aiExplanation`, `aiRemediation` are consulted. -/
structure EnrichTuple where
  id : String
  severity : Option String := none
  aiExplanation : Option String := none
  aiRemediation : Option String := none
deriving DecidableEq, Repr

/-- `byId.set(f.id, \x7b ...base, severity: f.severity ?? base.severity,
aiExplanation: ..., aiRemediation: ... \x7d)` (lines 435-440): an explicit
field update, not a spread, so every other field of `base` is untouched. -/
def applyEnrich (base : Finding) (t : EnrichTuple) : Finding :=
  { base with
    severity := t.severity.getD base.severity,
    aiExplanation := jsNullish t.aiExplanation base.aiExplanation,
    aiRemediation := jsNullish t.aiRemediation base.aiRemediation }

/-- One iteration of the response-merge loop (lines 432-442): tuples whose
id matches no input record are skipped. -/
def enrichStep (m : JMap Finding) (t : EnrichTuple) : JMap Finding :=
  match jget m t.id with
  | some base => jset m t.id (applyEnrich base t)
  | none => m

/-- `BedrockService.enrichFindings`, merge part: build the id-keyed map of
the input findings, fold the parsed response tuples over it, and return the
value list; a `none` parse outcome falls back to the input unchanged
(line 427 `return findings`). -/
def enrichFindings (findings : List Finding)
    (parsed : Option (List EnrichTuple)) : List Finding :=
  match parsed with
  | none => findings
  | some arr => jvalues (arr.foldl enrichStep (jofList findings))

theorem applyEnrich_id (base : Finding) (t : EnrichTuple) :
    (applyEnrich base t).id = base.id := rfl

theorem WFmap_enrichStep {m : JMap Finding} (hm : WFmap m) (t : EnrichTuple) :
    WFmap (enrichStep m t) := by
  unfold enrichStep
  cases hg : jget m t.id with
  | none => exact hm
  | some base =>
    exact WFmap_jset hm (by rw [applyEnrich_id]; exact jget_WF hm hg)

theorem WFmap_foldl_enrichStep (R : List EnrichTuple) :
    ∀ {m : JMap Finding}, WFmap m → WFmap (R.foldl enrichStep m) := by
  induction R with
  | nil => intro m hm; exact hm
  | cons t r ih => intro m hm; exact ih (WFmap_enrichStep hm t)

theorem jkeys_enrichStep (m : JMap Finding) (t : EnrichTuple) :
    jkeys (enrichStep m t) = jkeys m := by
  unfold enrichStep
  cases hg : jget m t.id with
  | none => rfl
  | some base => exact jkeys_jset_of_mem _ (mem_jkeys_of_jget hg)

theorem jkeys_foldl_enrichStep (R : List EnrichTuple) :
    ∀ (m : JMap Finding), jkeys (R.foldl enrichStep m) = jkeys m := by
  induction R with
  | nil => intro m; rfl
  | cons t r ih =>
    intro m
    rw [List.foldl_cons, ih, jkeys_enrichStep]

theorem jget_enrichStep_ne {m : JMap Finding} {t : EnrichTuple} {k : String}
    (h : t.id ≠ k) : jget (enrichStep m t) k = jget m k := by
  unfold enrichStep
  cases jget m t.id with
  | none => rfl
  | some base => exact jget_jset_ne _ _ _ _ h

theorem jget_foldl_enrichStep_of_absent (R : List EnrichTuple) :
    ∀ {m : JMap Finding} {k : String}, (∀ t ∈ R, t.id ≠ k) →
      jget (R.foldl enrichStep m) k = jget m k := by
  induction R with
  | nil => intro m k _; rfl
  | cons t r ih =>
    intro m k h
    rw [List.foldl_cons, ih (fun u hu => h u (List.mem_cons_of_mem _ hu)),
      jget_enrichStep_ne (h t (List.mem_cons_self _ _))]

theorem jofList_eq_of_nodup :
    ∀ {l : List Finding}, (l.map Finding.id).Nodup →
      jofList l = l.map (fun f => (f.id, f)) := by
  suffices h : ∀ (l : List Finding) (acc : JMap Finding),
      (l.map Finding.id).Nodup → (∀ f ∈ l, f.id ∉ jkeys acc) →
      l.foldl (fun m f => jset m f.id f) acc = acc ++ l.map (fun f => (f.id, f)) by
    intro l hnd
    simpa using h l [] hnd (by simp)
  intro l
  induction l with
  | nil => intro acc _ _; simp
  | cons f t ih =>
    intro acc hnd hkeys
    have hnd' : f.id ∉ t.map Finding.id ∧ (t.map Finding.id).Nodup := by
      rw [List.map_cons] at hnd; exact List.nodup_cons.mp hnd
    have hset : jset acc f.id f = acc ++ [(f.id, f)] :=
      jset_append_of_not_mem f (hkeys f (List.mem_cons_self _ _))
    have hkeq : jkeys (acc ++ [(f.id, f)]) = jkeys acc ++ [f.id] := by
      simp [jkeys]
    have hrest : ∀ g ∈ t, g.id ∉ jkeys (acc ++ [(f.id, f)]) := by
      intro g hg
      have h1 : g.id ∉ jkeys acc := hkeys g (List.mem_cons_of_mem _ hg)
      have h2 : g.id ≠ f.id := by
        intro he
        exact hnd'.1 (he ▸ List.mem_map_of_mem Finding.id hg)
      rw [hkeq]
      intro hmem
      rcases List.mem_append.mp hmem with hc | hc
      · exact h1 hc
      · exact h2 (List.mem_singleton.mp hc)
    calc (f :: t).foldl (fun m f => jset m f.id f) acc
        = t.foldl (fun m f => jset m f.id f) (jset acc f.id f) := rfl
      _ = t.foldl (fun m f => jset m f.id f) (acc ++ [(f.id, f)]) := by rw [hset]
      _ = (acc ++ [(f.id, f)]) ++ t.map (fun f => (f.id, f)) := ih _ hnd'.2 hrest
      _ = acc ++ (f :: t).map (fun f => (f.id, f)) := by simp

theorem jget_map_pair :
    ∀ {l : List Finding}, (l.map Finding.id).Nodup → ∀ {f : Finding}, f ∈ l →
      jget (l.map (fun f => (f.id, f))) f.id = some f := by
  intro l
  induction l with
  | nil => intro _ f hf; cases hf
  | cons g t ih =>
    intro hnd f hf
    have hnd' : g.id ∉ t.map Finding.id ∧ (t.map Finding.id).Nodup := by
      rw [List.map_cons] at hnd; exact List.nodup_cons.mp hnd
    rcases List.mem_cons.mp hf with h | h
    · subst h; simp [jget]
    · by_cases he : g.id = f.id
      · exact absurd (he ▸ List.mem_map_of_mem Finding.id h) hnd'.1
      · simp only [List.map_cons, jget_cons, if_neg he]
        exact ih hnd'.2 h

theorem jkeys_map_pair (l : List Finding) :
    jkeys (l.map (fun f => (f.id, f))) = l.map Finding.id := by
  simp [jkeys, List.map_map]

theorem map_id_jvalues {m : JMap Finding} (hm : WFmap m) :
    (jvalues m).map Finding.id = jkeys m := by
  induction m with
  | nil => rfl
  | cons p t ih =>
    obtain ⟨k, v⟩ := p
    have hid : v.id = k := by simpa using hm.2 (k, v) (List.mem_cons_self _ _)
    simp only [jvalues_cons, jkeys_cons, List.map_cons, hid]
    rw [ih (WFmap_tail hm)]

/-- C4: enrichment merging is non-destructive — a record whose id is absent
from the parsed completion-service response survives the merge unchanged,
and an unparseable (or non-array) response leaves the whole batch exactly
as it was, with no exception escaping the merge. -/
theorem enrichFindings_nondestructive :
    (∀ fs : List Finding, enrichFindings fs none = fs)
    ∧ (∀ (fs : List Finding) (R : List EnrichTuple) (f : Finding),
        (fs.map Finding.id).Nodup → f ∈ fs → (∀ t ∈ R, t.id ≠ f.id) →
        findById (enrichFindings fs (some R)) f.id = some f
        ∧ f ∈ enrichFindings fs (some R)) := by
  constructor
  · intro fs; rfl
  · intro fs R f hnd hf habs
    have hm0 : WFmap (jofList fs) := WFmap_jofList fs
    have hmR : WFmap (R.foldl enrichStep (jofList fs)) :=
      WFmap_foldl_enrichStep R hm0
    have hg : jget (R.foldl enrichStep (jofList fs)) f.id = some f := by
      rw [jget_foldl_enrichStep_of_absent R habs, jofList_eq_of_nodup hnd]
      exact jget_map_pair hnd hf
    exact ⟨by rw [show enrichFindings fs (some R)
        = jvalues (R.foldl enrichStep (jofList fs)) from rfl,
        findById_jvalues hmR]; exact hg,
      (mem_jvalues_iff_jget hmR f).mpr hg⟩

/-- Response tuple whose id matches no input record, used in witnesses. -/
def sampleT : EnrichTuple := { id := "z", severity := some "low" }

/-- Witness for C4 at concrete inputs. -/
theorem enrichFindings_nondestructive_witness :
    enrichFindings [sampleA] none = [sampleA]
    ∧ findById (enrichFindings [sampleA] (some [sampleT])) sampleA.id
        = some sampleA
    ∧ sampleA ∈ enrichFindings [sampleA] (some [sampleT]) :=
  ⟨enrichFindings_nondestructive.1 [sampleA],
    (enrichFindings_nondestructive.2 [sampleA] [sampleT] sampleA
      (by decide) (by decide) (by decide)).1,
    (enrichFindings_nondestructive.2 [sampleA] [sampleT] sampleA
      (by decide) (by decide) (by decide)).2⟩

/-- C10: enrichment introduces no records — for every parse outcome the
merged output carries exactly the ids of the input batch; response tuples
with unknown ids are dropped, never inserted. -/
theorem enrichFindings_no_new_ids (fs : List Finding)
    (parsed : Option (List EnrichTuple)) (hnd : (fs.map Finding.id).Nodup) :
    (enrichFindings fs parsed).map Finding.id = fs.map Finding.id := by
  cases parsed with
  | none => rfl
  | some R =>
    show (jvalues (R.foldl enrichStep (jofList fs))).map Finding.id
        = fs.map Finding.id
    rw [map_id_jvalues (WFmap_foldl_enrichStep R (WFmap_jofList fs)),
      jkeys_foldl_enrichStep, jofList_eq_of_nodup hnd, jkeys_map_pair]

/-- Witness for C10 at concrete inputs: a response tuple with a foreign id
does not enter the output. -/
theorem enrichFindings_no_new_ids_witness :
    (enrichFindings [sampleA] (some [sampleT])).map Finding.id
      = [sampleA].map Finding.id :=
  enrichFindings_no_new_ids [sampleA] (some [sampleT]) (by decide)

/-! ### Severity normalization (semgrep.sarif.mapper.ts `toSeverity`) -/

/-- ASCII lowercasing of one character, as `String.prototype.toLowerCase`
acts on the characters appearing here. -/
def lcChar (c : Char) : Char :=
  if 'A' ≤ c ∧ c ≤ 'Z' then Char.ofNat (c.toNat + 32) else c

/-- `s.toLowerCase()`. -/
def lowerStr (s : String) : String := String.mk (s.data.map lcChar)

/-- Body of `toSeverity` after the lowercasing (mapper lines 6-10). -/
def toSeverityOf (v : String) : String :=
  if v = "critical" ∨ v = "blocker" then "critical"
  else if v = "high" ∨ v = "error" then "high"
  else if v = "medium" ∨ v = "warning" then "medium"
  else if v = "low" ∨ v = "note" ∨ v = "info" then "low"
  else "unknown"

/-- `toSeverity` (mapper lines 4-11): `const v = (s || '').toLowerCase()`
followed by the vocabulary table. -/
def toSeverity (s : Option String) : String :=
  toSeverityOf (lowerStr (s.getD ""))

/-- The declared `Severity` union of finding.model.ts. -/
def sixSeverities : List String :=
  ["critical", "high", "medium", "low", "info", "unknown"]

theorem toSeverityOf_mem (v : String) : toSeverityOf v ∈ sixSeverities := by
  unfold toSeverityOf
  by_cases h1 : v = "critical" ∨ v = "blocker"
  · simp [h1, sixSeverities]
  · by_cases h2 : v = "high" ∨ v = "error"
    · simp [h1, h2, sixSeverities]
    · by_cases h3 : v = "medium" ∨ v = "warning"
      · simp [h1, h2, h3, sixSeverities]
      · by_cases h4 : v = "low" ∨ v = "note" ∨ v = "info"
        · simp [h1, h2, h3, h4, sixSeverities]
        · simp [h1, h2, h3, h4, sixSeverities]

theorem toSeverity_mem (s : Option String) : toSeverity s ∈ sixSeverities :=
  toSeverityOf_mem _

/-- C6: the severity normalizer maps `"error"`, `"warning"`, `"note"`,
`"blocker"`, `"info"` and the empty string to `high`, `medium`, `low`,
`critical`, `low` and `unknown` respectively. -/
theorem toSeverity_source_vocab :
    toSeverity (some "error") = "high"
    ∧ toSeverity (some "warning") = "medium"
    ∧ toSeverity (some "note") = "low"
    ∧ toSeverity (some "blocker") = "critical"
    ∧ toSeverity (some "info") = "low"
    ∧ toSeverity (some "") = "unknown" := by
  decide

/-! ### Semgrep result normalizers (semgrep.sarif.mapper.ts and the semgrep
adapter's array path in scan.service.ts lines 53-84) -/

/-- ToInt32 (the JS `| 0` coercion): wrap to a signed 32-bit value. -/
def jsInt32 (n : Int) : Int :=
  let m := ((n % 4294967296) + 4294967296) % 4294967296
  if m ≥ 2147483648 then m - 4294967296 else m

/-- One base-36 digit, lowercase as JS `Number.prototype.toString(36)`. -/
def base36Digit (n : Nat) : Char :=
  if n < 10 then Char.ofNat (48 + n) else Char.ofNat (97 + (n - 10))

def natToBase36Go : Nat → Nat → List Char → List Char
  | 0, _, acc => acc
  | fuel + 1, n, acc =>
    if n = 0 then acc else natToBase36Go fuel (n / 36) (base36Digit (n % 36) :: acc)

/-- `n.toString(36)` for a non-negative number. -/
def natToBase36 (n : Nat) : String :=
  if n = 0 then "0" else String.mk (natToBase36Go n n [])

/-- `hashId` (mapper lines 14-18): `h = (h * 31 + input.charCodeAt(i)) | 0`
over the characters, then `Math.abs(h).toString(36)`.  (`charCodeAt` and
the code point agree on every character the id base can contain here.) -/
def hashId (s : String) : String :=
  natToBase36
    (Int.natAbs (s.data.foldl (fun h c => jsInt32 (h * 31 + Int.ofNat c.toNat)) 0))

/-- JS whitespace relevant to `trim` in this code base. -/
def isJsWs (c : Char) : Bool :=
  c = ' ' || c = '\t' || c = '\n' || c = '\r'

/-- `s.trim()`. -/
def trimStr (s : String) : String :=
  String.mk (((s.data.dropWhile isJsWs).reverse.dropWhile isJsWs).reverse)

/-- `s.trimEnd()`. -/
def trimEndStr (s : String) : String :=
  String.mk ((s.data.reverse.dropWhile isJsWs).reverse)

/-- `s.slice(0, n)` for a non-negative bound. -/
def takeStr (s : String) (n : Nat) : String := String.mk (s.data.take n)

/-- `msgText` (mapper lines 20-22); the `text`/`markdown`/plain-string
alternatives of a SARIF message are collapsed into one optional text. -/
def msgText (m : Option String) : String := trimStr (jsOrStr m "")

structure SarifRegion where
  startLine : Option Nat := none
  startColumn : Option Nat := none
  snippetText : Option String := none
deriving DecidableEq, Repr

structure SarifLocation where
  uri : Option String := none
  region : Option SarifRegion := none
deriving DecidableEq, Repr

structure SarifResult where
  ruleId : Option String := none
  level : Option String := none
  messageText : Option String := none
  locations : List SarifLocation := []
  propsSeverity : Option String := none
  propsTags : Option (List String) := none
  propsCwe : Option (List String) := none
  fingerprints : Option (List (String × String)) := none
deriving DecidableEq, Repr

structure SarifRule where
  id : Option String := none
  shortDescriptionText : Option String := none
  name : Option String := none
  propsSeverity : Option String := none
  defaultLevel : Option String := none
  propsTags : Option (List String) := none
  propsCwe : Option (List String) := none
deriving DecidableEq, Repr

structure SarifRun where
  results : List SarifResult := []
  rules : List SarifRule := []
deriving DecidableEq, Repr

structure SarifDoc where
  runs : List SarifRun := []
deriving DecidableEq, Repr

/-- The `ctx` argument threaded through the normalizers. -/
structure MapCtx where
  repo : Option String := none
  createdAt : Option String := none
deriving DecidableEq, Repr

/-- `(driver?.rules || []).reduce(...)` (mapper lines 41-47): rule table
keyed by id, skipping rules with a falsy id. -/
def driverRulesMap (rules : List SarifRule) : JMap SarifRule :=
  rules.foldl
    (fun m r =>
      match r.id with
      | some i => if i = "" then m else jset m i r
      | none => m)
    []

/-- The body of the `results.map` of `mapSemgrepSarifToFindings`
(mapper lines 49-97). -/
def mapSarifResult (rulesMap : JMap SarifRule) (ctx : MapCtx)
    (idx : Nat) (r : SarifResult) : Finding :=
  let firstLoc := r.locations.head?
  let file : String := jsOrStr (firstLoc.bind SarifLocation.uri) ""
  let region := firstLoc.bind SarifLocation.region
  let line : Option Nat :=
    match region.bind SarifRegion.startLine with
    | some 0 => none
    | some n => some n
    | none => none
  let col : Option Nat :=
    match region.bind SarifRegion.startColumn with
    | some 0 => none
    | some n => some n
    | none => none
  let snippet : Option String :=
    match region.bind SarifRegion.snippetText with
    | some s => if s = "" then none else some s
    | none => none
  let ruleId : String := jsOrStr r.ruleId "rule"
  let driverRule := jget rulesMap ruleId
  let title : String :=
    jsOrStr (driverRule.bind SarifRule.shortDescriptionText)
      (jsOrStr (driverRule.bind SarifRule.name) ruleId)
  let sevRaw : Option String :=
    jsOrOpt r.level
      (jsOrOpt r.propsSeverity
        (jsOrOpt (driverRule.bind SarifRule.propsSeverity)
          (driverRule.bind SarifRule.defaultLevel)))
  let message := msgText r.messageText
  let lineStr : String := match line with | some n => toString n | none => ""
  let idBase := ruleId ++ "|" ++ file ++ "|" ++ lineStr ++ "|" ++ takeStr message 140
  { id := hashId idBase ++ "-" ++ natToBase36 idx,
    tool := "semgrep",
    ruleId := ruleId,
    title := some title,
    message := message,
    severity := toSeverity sevRaw,
    location := some
      { file := if file = "" then none else some file,
        line := line, column := col, url := none, snippet := snippet },
    fingerprints := r.fingerprints,
    tags := jsNullish r.propsTags (driverRule.bind SarifRule.propsTags),
    createdAt := ctx.createdAt,
    aiExplanation := none,
    aiRemediation := none,
    ruleSeverity := sevRaw,
    ruleShortId := (ruleId.splitOn ".").getLast?,
    cwe := jsNullish r.propsCwe (driverRule.bind SarifRule.propsCwe) }

/-- `mapSemgrepSarifToFindings` (mapper lines 34-98). -/
def mapSemgrepSarifToFindings (sarif : SarifDoc) (ctx : MapCtx) : List Finding :=
  let run := sarif.runs.head?.getD {}
  let rulesMap := driverRulesMap run.rules
  run.results.enum.map (fun p => mapSarifResult rulesMap ctx p.1 p.2)

/-- A record of the "flattened array" fallback payload the semgrep adapter
coerces (scan.service.ts lines 60-80): only the consulted keys are kept;
the `r.location?.x ?? r.locations?.[0]?...` chains keep both operands. -/
structure RawItem where
  id : Option String := none
  ruleId : Option String := none
  message : Option String := none
  severity : Option String := none
  locFile : Option String := none
  locLine : Option Nat := none
  locSnippet : Option String := none
  sarifFile : Option String := none
  sarifLine : Option Nat := none
  sarifSnippet : Option String := none
  fingerprints : Option (List (String × String)) := none
deriving DecidableEq, Repr

/-- The semgrep adapter's generic array path (scan.service.ts lines 60-80):
best-effort coercion with `??` fallbacks; note that `severity` is passed
through with an `as any` cast, unvalidated. -/
def semgrepGenericMap (items : List RawItem) : List Finding :=
  items.enum.map fun p =>
    { id := p.2.id.getD ("semgrep-" ++ toString p.1),
      tool := "semgrep",
      ruleId := p.2.ruleId.getD "rule",
      message := p.2.message.getD "",
      severity := p.2.severity.getD "unknown",
      location := some
        { file := jsNullish p.2.locFile p.2.sarifFile,
          line := jsNullish p.2.locLine p.2.sarifLine,
          column := none, url := none,
          snippet := jsNullish p.2.locSnippet p.2.sarifSnippet },
      fingerprints := p.2.fingerprints }

/-- The payload universe the semgrep adapter can receive: a SARIF-shaped
document, a flat array, or anything else. -/
inductive SemgrepPayload where
  | sarifDoc (doc : SarifDoc)
  | arr (items : List RawItem)
  | other
deriving DecidableEq, Repr

/-- `isSarif` (mapper lines 25-31): `payload.runs` is an array whose first
element carries a `results` array — in the typed universe, a SARIF document
with at least one run. -/
def isSarif : SemgrepPayload → Bool
  | .sarifDoc doc => !doc.runs.isEmpty
  | _ => false

/-- `SemgrepAdapter.mapResultToFindings` (scan.service.ts lines 53-84):
SARIF detection first, then the array fallback, else no findings. -/
def SemgrepAdapter.mapResultToFindings (payload : SemgrepPayload)
    (ctx : MapCtx) : List Finding :=
  if isSarif payload then
    match payload with
    | .sarifDoc doc => mapSemgrepSarifToFindings doc ctx
    | _ => []
  else
    match payload with
    | .arr items => semgrepGenericMap items
    | _ => []

theorem mapSarifResult_severity_mem (rulesMap : JMap SarifRule) (ctx : MapCtx)
    (idx : Nat) (r : SarifResult) :
    (mapSarifResult rulesMap ctx idx r).severity ∈ sixSeverities :=
  toSeverity_mem _

/-- C7 (code bug): the SARIF path and `toSeverity` always produce one of the
six declared severities, but the adapter's generic array path stores the
source's severity string unvalidated (`(r.severity as any)`), so the payload
`[\x7b severity: "ERROR" \x7d]` puts the out-of-enum value `"ERROR"` into the
record that is merged into the store, violating the declared `Severity`
union of finding.model.ts. -/
theorem semgrep_generic_severity_escapes_enum :
    (SemgrepAdapter.mapResultToFindings
        (.arr [{ severity := some "ERROR" }]) {}).map Finding.severity
      = ["ERROR"]
    ∧ "ERROR" ∉ sixSeverities
    ∧ (∀ s : Option String, toSeverity s ∈ sixSeverities)
    ∧ (∀ (rulesMap : JMap SarifRule) (ctx : MapCtx) (idx : Nat) (r : SarifResult),
        (mapSarifResult rulesMap ctx idx r).severity ∈ sixSeverities) := by
  refine ⟨?_, by decide, toSeverity_mem, mapSarifResult_severity_mem⟩
  decide

/-! ### Truncation repair (bedrock.service.ts `repairLikelyJSONArray`,
lines 311-371) — step 5 of the defensive parse chain `tryParseJSON`. -/

/-- `s.indexOf(c)` on a character list: position or -1. -/
def indexOfChar (l : List Char) (c : Char) : Int :=
  match l.findIdx? (· = c) with
  | some i => Int.ofNat i
  | none => -1

/-- `s.lastIndexOf(c)`: last position or -1. -/
def lastIndexOfChar (l : List Char) (c : Char) : Int :=
  match l.reverse.findIdx? (· = c) with
  | some i => Int.ofNat (l.length - 1 - i)
  | none => -1

/-- Walker state of the bracket/quote scan (lines 319-322). -/
structure RepairState where
  depth : Nat
  inStr : Bool
  esc : Bool
  lastBalancedIdx : Int
deriving DecidableEq, Repr

/-- The scan loop (lines 324-342).  `depth` is a `Nat`, so `depth - 1`
saturates at zero exactly like `Math.max(0, depth - 1)`; the
`lastBalancedIdx` update happens only outside strings, after the bracket
bookkeeping, as in the source. -/
def repairWalk : List Char → Nat → RepairState → RepairState
  | [], _, st => st
  | ch :: rest, i, st =>
    let st' :=
      if st.inStr then
        if st.esc then { st with esc := false }
        else if ch = '\\' then { st with esc := true }
        else if ch = '"' then { st with inStr := false }
        else st
      else
        let st1 :=
          if ch = '"' then { st with inStr := true }
          else if ch = '[' ∨ ch = '{' then { st with depth := st.depth + 1 }
          else if ch = ']' ∨ ch = '}' then { st with depth := st.depth - 1 }
          else st
        if st1.depth = 0 then { st1 with lastBalancedIdx := Int.ofNat i } else st1
    repairWalk rest (i + 1) st'

/-- `candidate.replace(/,\s*$/, '')`: drop one trailing comma together with
the whitespace after it, when the string ends that way. -/
def stripTrailingCommaWs (l : List Char) : List Char :=
  let rest := l.reverse.dropWhile isJsWs
  match rest with
  | ',' :: rest' => rest'.reverse
  | _ => l

/-- `BedrockService.repairLikelyJSONArray` (lines 311-371): trim, find the
first bracket, scan for the last balanced position (falling back to the
last closing bracket or brace), cut there, strip a trailing comma and close
the array when the cut does not already end in a bracket, re-slice from the
first bracket, and sanity-check the shape. -/
def repairLikelyJSONArray (s : String) : Option String :=
  let str := (trimStr s).data
  let firstBracket : Int := indexOfChar str '['
  if firstBracket < 0 then none
  else
    let fb : Nat := firstBracket.toNat
    let st := repairWalk (str.drop fb) fb
      { depth := 0, inStr := false, esc := false, lastBalancedIdx := -1 }
    let cutIdx : Int :=
      if st.lastBalancedIdx ≥ 0 then st.lastBalancedIdx
      else max (lastIndexOfChar str ']') (lastIndexOfChar str '}')
    if cutIdx < 0 then none
    else
      let candidate0 := str.take (cutIdx.toNat + 1)
      let trimmed := (candidate0.reverse.dropWhile isJsWs).reverse
      let candidate1 :=
        if trimmed.getLast? = some ']' then candidate0
        else stripTrailingCommaWs candidate0 ++ [']']
      let candidate2 := candidate1.drop fb
      let ctrim := ((candidate2.dropWhile isJsWs).reverse.dropWhile isJsWs).reverse
      if ctrim.head? = some '[' ∧ ctrim.getLast? = some ']'
      then some (String.mk ctrim)
      else none

/-- C5: on the truncated text of the spec's example, the repair step drops
the incomplete trailing element and closes the array. -/
theorem repairLikelyJSONArray_truncated_example :
    repairLikelyJSONArray "[\x7b\"id\":\"a\",\"x\":1\x7d,\x7b\"id\":\"b\",\"x\":2"
      = some "[\x7b\"id\":\"a\",\"x\":1\x7d]" := by
  decide

/-! ### Log polling and completion detection (scan.service.ts
`streamLogs`, lines 183-266)

A JS `line.match(re)` is non-null exactly when some substring of the line
matches the regex.  The semgrep completion pattern
`semgrep-results-[a-zA-Z0-9._-]+-[a-zA-Z0-9._-]+-\d\x7b8\x7dT\d\x7b6\x7dZ\.json`
with the `i` flag is embedded by lowercasing the line and testing, for some
start position and some split of the two `-` separators, the literal
prefix, the two non-empty class runs, and the rigid timestamp tail. -/

/-- A character of the class `[a-zA-Z0-9._-]` after lowercasing. -/
def isPatClassChar (c : Char) : Bool :=
  c.isLower || c.isDigit || c = '.' || c = '_' || c = '-'

/-- The rigid tail `\d\x7b8\x7dT\d\x7b6\x7dZ\.json` (lowercased) as a prefix
of `l`. -/
def stampPrefix (l : List Char) : Bool :=
  decide ((l.take 8).length = 8)
  && (l.take 8).all Char.isDigit
  && decide ((l.drop 8).take 1 = ['t'])
  && decide (((l.drop 9).take 6).length = 6)
  && ((l.drop 9).take 6).all Char.isDigit
  && decide ((l.drop 15).take 6 = ['z', '.', 'j', 's', 'o', 'n'])

/-- Existence of a decomposition `class+ - class+ - stamp` starting `rest`. -/
def semgrepTailMatch (rest : List Char) : Bool :=
  (List.range rest.length).any fun p =>
    (List.range rest.length).any fun q =>
      decide (p < q)
      && decide (rest.get? p = some '-')
      && decide (rest.get? q = some '-')
      && !(rest.take p).isEmpty
      && (rest.take p).all isPatClassChar
      && !((rest.drop (p + 1)).take (q - p - 1)).isEmpty
      && ((rest.drop (p + 1)).take (q - p - 1)).all isPatClassChar
      && stampPrefix (rest.drop (q + 1))

/-- `line.match(semgrep resultFilePattern) !== null`. -/
def semgrepResultFileMatch (line : List Char) : Bool :=
  let l := line.map lcChar
  (List.range l.length).any fun i =>
    decide ((l.drop i).take 16 = "semgrep-results-".data)
    && semgrepTailMatch (l.drop (i + 16))

/-- The slice of a `ScannerAdapter` that the completion-detection logic
reads (scan.service.ts lines 27-40); the endpoint URLs are remote-transport
configuration and are not modelled. -/
structure ScannerAdapterM where
  tool : String
  resultFilePattern : List Char → Bool

/-- The semgrep adapter's detection data (scan.service.ts lines 45-51). -/
def SemgrepAdapterM : ScannerAdapterM :=
  { tool := "semgrep", resultFilePattern := semgrepResultFileMatch }

/-- One response of the log endpoint (scan.service.ts `LogChunk`,
lines 126-130); `end` is a Lean keyword, so the flag is named `endFlag`. -/
structure LogChunk where
  lines : List (List Char)
  endFlag : Bool
  cursor : Option String := none

/-- `takeWhile(ch => !ch.end, true)`: the delivered prefix of the chunk
stream, inclusive of the terminating chunk. -/
def takeUntilEndIncl : List LogChunk → List LogChunk
  | [] => []
  | c :: t => if c.endFlag then [c] else c :: takeUntilEndIncl t

/-- Result fetches triggered while scanning one delivered chunk: the `tap`
body (lines 200-264) issues one `http.get(a.resultUrl, ...)` per line that
matches `a.resultFilePattern` — there is no per-task "already fetched"
state anywhere in the loop. -/
def chunkFetches (a : ScannerAdapterM) (ch : LogChunk) : Nat :=
  (ch.lines.filter a.resultFilePattern).length

/-- Result fetches triggered over a whole polled stream. -/
def streamFetchCount (a : ScannerAdapterM) (chunks : List LogChunk) : Nat :=
  ((takeUntilEndIncl chunks).map (chunkFetches a)).sum

/-- C1 (amended): the polling loop performs exactly one result fetch per
delivered line matching the completion pattern — so a marker line delivered
n times triggers n fetches, not one. -/
theorem streamLogs_fetch_per_matching_line (a : ScannerAdapterM)
    (chunks : List LogChunk) :
    streamFetchCount a chunks
      = (((takeUntilEndIncl chunks).map LogChunk.lines).flatten.filter
          a.resultFilePattern).length := by
  unfold streamFetchCount
  induction takeUntilEndIncl chunks with
  | nil => rfl
  | cons c t ih =>
    simp only [List.map_cons, List.sum_cons, List.flatten_cons,
      List.filter_append, List.length_append, ih]
    rfl

/-- A log line carrying a semgrep completion marker. -/
def markerLine : List Char := "semgrep-results-a-b-20240101T000000Z.json".data

def dupChunk1 : LogChunk := { lines := [markerLine], endFlag := false }

def dupChunk2 : LogChunk := { lines := [markerLine], endFlag := true }

/-- C1 counterexample: a stream that delivers the same matching marker line
twice triggers two result fetches, not exactly one. -/
theorem streamLogs_double_marker_two_fetches :
    SemgrepAdapterM.resultFilePattern markerLine = true
    ∧ streamFetchCount SemgrepAdapterM [dupChunk1, dupChunk2] = 2
    ∧ streamFetchCount SemgrepAdapterM [dupChunk1, dupChunk2] ≠ 1 := by
  refine ⟨by decide, by decide, by decide⟩

/-! ### Scan session lifecycle (start-screen.component.ts `start`,
lines 50-85, together with `ScanService.startScan` lines 156-168)

The HTTP round trip is abstracted as the subscription outcome: `ok` when a
task handle arrived, `err` when the start request failed.  `pollingStarted`
records whether `streamLogsAndFinish` (the only call that subscribes to
`streamLogs`) has been invoked. -/

inductive ScanPhase where
  | idle
  | starting
  | scanning
  | completed
  | error
deriving DecidableEq, Repr

structure StartScreenState where
  phase : ScanPhase
  taskId : Option String
  logs : List String
  errorText : String
  pollingStarted : Bool
  serviceScanPhase : ScanPhase
deriving DecidableEq, Repr

inductive StartOutcome where
  | ok (taskId : String) (repo : String)
  | err (msg : String)
deriving DecidableEq, Repr

/-- The synchronous prologue of `start()` (component lines 53-58) together
with `ScanService.startScan` setting the service phase to `starting`
(service line 162): phase `starting`, placeholder log, cleared error and
task, and no polling subscription yet. -/
def startScreenBegin (_st : StartScreenState) : StartScreenState :=
  { phase := .starting,
    taskId := none,
    logs := ["Initializing scan..."],
    errorText := "",
    pollingStarted := false,
    serviceScanPhase := .starting }

/-- The subscription callbacks of `start()` (component lines 65-84): on a
task handle, mark started, switch to `scanning` and begin polling; on a
failed start, switch to `error`, record the message, and never touch the
polling machinery. -/
def startScreenResolve (st : StartScreenState) (outcome : StartOutcome) :
    StartScreenState :=
  match outcome with
  | .ok tid _ =>
    { st with
      phase := .scanning, taskId := some tid,
      logs := ["Streaming logs..."], pollingStarted := true,
      serviceScanPhase := .scanning }
  | .err msg =>
    { st with
      phase := .error, errorText := msg,
      logs := ["Start failed: " ++ msg] }

/-- `start()` end to end: the guard (component line 51) skips everything
while a scan is starting or running; otherwise the prologue runs and the
outcome callback fires. -/
def startScreenStart (st : StartScreenState) (outcome : StartOutcome) :
    StartScreenState :=
  if st.phase = .starting ∨ st.phase = .scanning then st
  else startScreenResolve (startScreenBegin st) outcome

/-- C8: when the start request yields no task handle, the session phase
goes `starting` → `error` and no polling loop is started. -/
theorem startScreen_start_failure_no_polling (st : StartScreenState)
    (msg : String)
    (hguard : ¬ (st.phase = .starting ∨ st.phase = .scanning)) :
    (startScreenBegin st).phase = .starting
    ∧ (startScreenBegin st).pollingStarted = false
    ∧ startScreenStart st (.err msg)
        = startScreenResolve (startScreenBegin st) (.err msg)
    ∧ (startScreenStart st (.err msg)).phase = .error
    ∧ (startScreenStart st (.err msg)).pollingStarted = false
    ∧ (startScreenStart st (.err msg)).errorText = msg := by
  refine ⟨rfl, rfl, ?_, ?_, ?_, ?_⟩ <;>
    simp [startScreenStart, hguard, startScreenResolve, startScreenBegin]

/-- An idle pre-start state used in witnesses. -/
def idleState : StartScreenState :=
  { phase := .idle, taskId := none, logs := [], errorText := "",
    pollingStarted := false, serviceScanPhase := .idle }

/-- Witness for C8 at a concrete idle session and failure message. -/
theorem startScreen_start_failure_no_polling_witness :
    (startScreenBegin idleState).phase = .starting
    ∧ (startScreenBegin idleState).pollingStarted = false
    ∧ startScreenStart idleState (.err "boom")
        = startScreenResolve (startScreenBegin idleState) (.err "boom")
    ∧ (startScreenStart idleState (.err "boom")).phase = .error
    ∧ (startScreenStart idleState (.err "boom")).pollingStarted = false
    ∧ (startScreenStart idleState (.err "boom")).errorText = "boom" :=
  startScreen_start_failure_no_polling idleState "boom" (by decide)

/-! ### Per-tool polling independence (C9)

Two revisions exist in the repository.  The named
src/app/services/scan.service.ts (lines 269-299) keeps ONE subscription
slot `logSub` and `startLogPolling` begins with `this.logSub?.unsubscribe()`
and `this.logs.set(['Streaming logs...'])`: starting polling for any tool
cancels whatever loop was running and resets the shared buffer.  The
later revision (the per-tool variant) keeps `logSubs: Record<ToolKind,
Subscription|undefined>`, cancels only `logSubs[tool]`, and only appends to
the log buffer. -/

inductive ToolKind where
  | semgrep
  | vanta
  | harness
deriving DecidableEq, Repr

/-- Printable tool name used in the per-tool revision's log lines. -/
def toolName : ToolKind → String
  | .semgrep => "semgrep"
  | .vanta => "vanta"
  | .harness => "harness"

/-- State of the single-subscription revision: the one `logSub` slot
(holding the tool and task it polls for) and the shared log buffer. -/
structure ScanPollStateSingle where
  logSub : Option (ToolKind × String)
  logs : List String
deriving DecidableEq, Repr

/-- `startLogPolling` of the single-subscription revision (lines 269-293):
unsubscribe whatever was there, reset the buffer, store the new
subscription. -/
def startLogPollingSingle (_st : ScanPollStateSingle) (taskId : String)
    (tool : ToolKind) : ScanPollStateSingle :=
  { logSub := some (tool, taskId), logs := ["Streaming logs..."] }

/-- `stopLogPolling` of the single-subscription revision (lines 296-299). -/
def stopLogPollingSingle (st : ScanPollStateSingle) : ScanPollStateSingle :=
  { st with logSub := none }

/-- Whether a polling loop for `tool` is live in the single-sub revision. -/
def isPollingActiveSingle (st : ScanPollStateSingle) (tool : ToolKind) : Bool :=
  match st.logSub with
  | some (t, _) => t = tool
  | none => false

/-- State of the per-tool revision: one subscription slot per tool and the
shared append-only log buffer. -/
structure ScanPollStatePerTool where
  logSubs : ToolKind → Option String
  logs : List String

/-- `startLogPolling` of the per-tool revision: cancel only that tool's old
subscription, append a banner line, store the new subscription under the
tool's own slot. -/
def startLogPollingPerTool (st : ScanPollStatePerTool) (taskId : String)
    (tool : ToolKind) : ScanPollStatePerTool :=
  { logSubs := fun t => if t = tool then some taskId else st.logSubs t,
    logs := st.logs ++ ["Streaming " ++ toolName tool ++ " logs..."] }

/-- `stopLogPolling` of the per-tool revision: with a tool, clear only that
slot; with none, clear all slots. -/
def stopLogPollingPerTool (st : ScanPollStatePerTool)
    (tool : Option ToolKind) : ScanPollStatePerTool :=
  match tool with
  | some tk => { st with logSubs := fun t => if t = tk then none else st.logSubs t }
  | none => { st with logSubs := fun _ => none }

/-- A single-revision state with an active semgrep loop and accumulated
log lines. -/
def busySingleState : ScanPollStateSingle :=
  { logSub := some (.semgrep, "t1"), logs := ["Streaming logs...", "l1", "l2"] }

/-- C9 counterexample (single-subscription revision, the cited
scan.service.ts): with semgrep's loop live, starting log polling for
harness kills semgrep's loop and wipes the accumulated buffer. -/
theorem startLogPolling_single_not_independent :
    isPollingActiveSingle busySingleState .semgrep = true
    ∧ isPollingActiveSingle
        (startLogPollingSingle busySingleState "t2" .harness) .semgrep = false
    ∧ (startLogPollingSingle busySingleState "t2" .harness).logs
        ≠ busySingleState.logs
    ∧ "l1" ∉ (startLogPollingSingle busySingleState "t2" .harness).logs := by
  refine ⟨by decide, by decide, by decide, by decide⟩

/-- C9 (amended): in the per-tool revision, starting or stopping log
polling for tool B leaves tool A's subscription untouched and only appends
to the accumulated log buffer. -/
theorem startLogPolling_perTool_independent (st : ScanPollStatePerTool)
    (taskId : String) (A B : ToolKind) (hAB : A ≠ B) :
    (startLogPollingPerTool st taskId B).logSubs A = st.logSubs A
    ∧ (stopLogPollingPerTool st (some B)).logSubs A = st.logSubs A
    ∧ (startLogPollingPerTool st taskId B).logs
        = st.logs ++ ["Streaming " ++ toolName B ++ " logs..."] := by
  refine ⟨?_, ?_, rfl⟩ <;>
    simp [startLogPollingPerTool, stopLogPollingPerTool, hAB]

/-- A per-tool-revision state with an active semgrep loop, used in the C9
witness. -/
def busyPerToolState : ScanPollStatePerTool :=
  { logSubs := fun t => if t = .semgrep then some "t1" else none,
    logs := ["Streaming semgrep logs...", "l1"] }

/-- Witness for the amended C9 at concrete tools semgrep and harness. -/
theorem startLogPolling_perTool_independent_witness :
    (startLogPollingPerTool busyPerToolState "t2" .harness).logSubs .semgrep
        = busyPerToolState.logSubs .semgrep
    ∧ (stopLogPollingPerTool busyPerToolState (some .harness)).logSubs .semgrep
        = busyPerToolState.logSubs .semgrep
    ∧ (startLogPollingPerTool busyPerToolState "t2" .harness).logs
        = busyPerToolState.logs ++ ["Streaming harness logs..."] :=
  startLogPolling_perTool_independent busyPerToolState "t2" .semgrep .harness
    (by decide)
